import Mathlib

/-!
Shallow embedding of `owfmodules/uart/baudrate_analyzer.py` (class
`BaudrateAnalyzer`) and verification of the specification claims about it.

The external collaborators (the UART transport and the GPIO reset line) are
modelled as oracles: an `Env` records, for each candidate baudrate, whether
reconfiguration succeeds (`cfgOk`) and what the port yields at each wait
iteration (`data`).  `data r i = none` means the 1-second busy wait
(`wait_bytes`) timed out on its `i`-th call for rate `r`; `data r i = some bs`
means bytes became available and `receive(1)` returned the byte list `bs`
(a conforming port returns at most one byte; the model leaves the length
unconstrained so that short reads can be analysed).
-/

namespace BaudrateAnalyzer

/-- Bytes received on the UART line take values in 0..255. -/
abbrev Byte := Fin 256

/-- Embedding of the static method `BaudrateAnalyzer.entropy` (source lines
167-175): `p, lns = Counter(b_buff), float(len(b_buff))` followed by
`-sum(count / lns * math.log(count / lns, 2) for count in p.values())`.
The iteration over `Counter(b_buff).values()` is the iteration over the
occurrence counts of the distinct byte values of the buffer, i.e. over
`b_buff.dedup` mapped through `b_buff.count`; `math.log(x, 2)` is
`Real.logb 2 x`. -/
noncomputable def entropy (b_buff : List Byte) : ℝ :=
  -((b_buff.dedup.map (fun b =>
      ((b_buff.count b : ℝ) / (b_buff.length : ℝ)) *
        Real.logb 2 ((b_buff.count b : ℝ) / (b_buff.length : ℝ)))).sum)

/-- Embedding of the `while count < threshold` loop of
`BaudrateAnalyzer.process_baudrate` (source lines 195-225), with
`threshold = 10`.  State: `i` indexes the next `wait_bytes` call, `count`
is the loop counter (incremented once per successful wait, regardless of how
many bytes `receive(1)` actually returned), `loopc` is the trigger retry
counter `loop`, `received` is `received_bytes` and `tx` counts calls of
`trigger_device` (each transmits the trigger characters once).
Result: the Python return value (`none` models Python `None`, the implicit
return after the loop completes; `some false` models `return False` on
timeout), the collected buffer, and the number of transmissions. -/
def collectLoop (trigger : Bool) (data : ℕ → Option (List Byte))
    (i count loopc : ℕ) (received : List Byte) (tx : ℕ) :
    Option Bool × List Byte × ℕ :=
  if h : count < 10 then
    match data i with
    | some bs => collectLoop trigger data (i + 1) (count + 1) loopc (received ++ bs) tx
    | Option.none =>
      if h2 : trigger = true ∧ loopc < 3 then
        collectLoop trigger data (i + 1) count (loopc + 1) received (tx + 1)
      else
        (some false, received, tx)
  else
    (Option.none, received, tx)
termination_by (10 - count) * 4 + (3 - loopc)
decreasing_by
· omega
· omega

/-- Result of one call of `process_baudrate`: the Python return value, the
sample buffer handed to the entropy scorer, and how often the trigger
characters were transmitted. -/
structure ProcessResult where
  retval : Option Bool
  sample : List Byte
  transmits : ℕ
deriving DecidableEq

/-- Embedding of `BaudrateAnalyzer.process_baudrate` (source lines 189-233):
runs the collection loop from the initial state (`count = 0`, `loop = 0`,
empty buffer). -/
def process_baudrate (trigger : Bool) (data : ℕ → Option (List Byte)) :
    ProcessResult :=
  let r := collectLoop trigger data 0 0 0 [] 0
  ⟨r.1, r.2.1, r.2.2⟩

/-- Proposition: the run of `process_baudrate` reaches `print_result`
(source lines 226-233).  Faithful to the source: the print section is reached
only when the while loop completed (the timeout path returned `False`
beforehand); then, if `min_entropy` is set, `print_result` is called exactly
when `entropy >= min_entropy`, and otherwise it is always called. -/
def process_prints (trigger : Bool) (minEntropy : Option ℝ)
    (data : ℕ → Option (List Byte)) : Prop :=
  (process_baudrate trigger data).retval = Option.none ∧
    match minEntropy with
    | some m => entropy (process_baudrate trigger data).sample ≥ m
    | Option.none => True

/-- Python truthiness of the value returned by `process_baudrate`
(`None` and `False` are falsy, `True` is truthy). -/
def pyTruthy : Option Bool → Bool
  | Option.none => false
  | some b => b

/-- Oracle for one sweep: whether `change_baudrate` succeeds at each rate
(source lines 127-143: on an exception it logs the error and returns
`False`), and the port behaviour at each rate. -/
structure Env where
  cfgOk : ℤ → Bool
  data : ℤ → ℕ → Option (List Byte)

/-- Observable trace of a sweep: the rates for which `change_baudrate` was
called, the rates for which `reset_target` was called, and the rates for
which `process_baudrate` was called. -/
structure SweepTrace where
  configured : List ℤ
  resets : List ℤ
  sampled : List ℤ
deriving DecidableEq

/-- Embedding of the shared per-candidate loop body of
`BaudrateAnalyzer.incremental_mode` and `BaudrateAnalyzer.list_mode`
(source lines 272-296): for each rate, if `change_baudrate` succeeds then
`reset_target` runs and `process_baudrate` runs, and the loop breaks when
the value returned by `process_baudrate` is truthy; if `change_baudrate`
fails the loop simply continues with the next rate. -/
def sweepRates (trigger : Bool) (env : Env) : List ℤ → SweepTrace
  | [] => ⟨[], [], []⟩
  | r :: rest =>
    if env.cfgOk r then
      if pyTruthy (process_baudrate trigger (env.data r)).retval then
        ⟨[r], [r], [r]⟩
      else
        let t := sweepRates trigger env rest
        ⟨r :: t.configured, r :: t.resets, r :: t.sampled⟩
    else
      let t := sweepRates trigger env rest
      ⟨r :: t.configured, t.resets, t.sampled⟩

/-- Ascending case of Python `range(start, stop, step)` for `0 < step`. -/
def pyRangeUp (start stop step : ℤ) : List ℤ :=
  if h : 0 < step ∧ start < stop then
    start :: pyRangeUp (start + step) stop step
  else []
termination_by (stop - start).toNat
decreasing_by omega

/-- Descending case of Python `range(start, stop, step)` for `step < 0`. -/
def pyRangeDown (start stop step : ℤ) : List ℤ :=
  if h : step < 0 ∧ stop < start then
    start :: pyRangeDown (start + step) stop step
  else []
termination_by (start - stop).toNat
decreasing_by omega

/-- Embedding of the Python builtin `range(start, stop, step)` as used at
source line 277 (`step = 0` raises in Python and is never used by the
module; it is mapped to the empty list). -/
def pyRange (start stop step : ℤ) : List ℤ :=
  if 0 < step then pyRangeUp start stop step
  else if step < 0 then pyRangeDown start stop step
  else []

/-- Embedding of `BaudrateAnalyzer.incremental_mode` (source lines 272-284):
iterates the sweep over `range(baudrate_min, baudrate_max, baudrate_inc)`. -/
def incremental_mode (trigger : Bool) (env : Env) (bmin bmax binc : ℤ) :
    SweepTrace :=
  sweepRates trigger env (pyRange bmin bmax binc)

/-- Python `str.split(",")` over the character list of a string: always
yields at least one (possibly empty) entry. -/
def splitComma : List Char → List (List Char)
  | [] => [[]]
  | c :: rest =>
    if c = ',' then [] :: splitComma rest
    else
      match splitComma rest with
      | [] => [[c]]
      | h :: t => (c :: h) :: t

/-- Python `str.strip()`: leading and trailing whitespace removed. -/
def pyStrip (cs : List Char) : List Char :=
  ((cs.dropWhile Char.isWhitespace).reverse.dropWhile Char.isWhitespace).reverse

/-- Python `str.upper()` over ASCII characters. -/
def pyUpper (cs : List Char) : List Char :=
  cs.map Char.toUpper

/-- Numeric value of a list of ASCII decimal digits. -/
def digitsVal (cs : List Char) : ℕ :=
  cs.foldl (fun a c => a * 10 + (c.toNat - 48)) 0

/-- Embedding of the Python builtin `int(s)` on an already-stripped string
(ASCII decimal with an optional sign; any other string raises `ValueError`,
modelled as `none`). -/
def pyInt : List Char → Option ℤ
  | [] => Option.none
  | c :: rest =>
    if c = '-' then
      if rest ≠ [] ∧ rest.all Char.isDigit then some (-(digitsVal rest : ℤ))
      else Option.none
    else if c = '+' then
      if rest ≠ [] ∧ rest.all Char.isDigit then some ((digitsVal rest : ℤ))
      else Option.none
    else if (c :: rest).all Char.isDigit then some ((digitsVal (c :: rest) : ℤ))
    else Option.none

/-- Embedding of the list comprehension of `BaudrateAnalyzer.list_mode`
(source line 291): `[int(b.strip()) for b in baudrate_list.split(",")]`.
Python evaluates the whole comprehension before the `for` loop over it runs,
so a single malformed entry raises `ValueError` (`none`) before any rate is
processed. -/
def parseBaudrateList (s : String) : Option (List ℤ) :=
  ((splitComma s.data).map pyStrip).mapM pyInt

/-- Embedding of `BaudrateAnalyzer.list_mode` (source lines 286-296):
`none` models the `ValueError` escaping to the caller (`run` catches and
logs it), in which case no rate is ever configured or sampled. -/
def list_mode (trigger : Bool) (env : Env) (s : String) : Option SweepTrace :=
  (parseBaudrateList s).map (fun rates => sweepRates trigger env rates)

/-- Option values of the module that `check_options` reads:
`mode`, `reset_pin` (empty string or an integer), `reset_pol` and
`baudrate_list`. -/
structure ModOptions where
  mode : String
  reset_pin : Option ℤ
  reset_pol : String
  baudrate_list : String

/-- Python test `reset_pin in range(0, 15)` for a set reset pin. -/
def pinInRange : Option ℤ → Bool
  | some p => decide (0 ≤ p ∧ p < 15)
  | Option.none => true

/-- Entry strings of the baudrate list as `check_options` computes them
(source line 105): split on commas, each entry stripped. -/
def strippedEntries (s : String) : List (List Char) :=
  (splitComma s.data).map pyStrip

/-- Embedding of `BaudrateAnalyzer.check_options` (source lines 85-111).
Faithful to the source: for `list` mode the entries are only split and
stripped, never parsed as integers, and the emptiness test `if not baud_list`
is the only rejection; the `except` clause cannot fire for pure string
operations (and would not return `False` if it did). -/
def check_options (o : ModOptions) : Bool :=
  if o.reset_pin.isSome then
    if ¬ (pyUpper o.reset_pol.data ∈ ["LOW".data, "HIGH".data]) then false
    else if ¬ (pinInRange o.reset_pin = true) then false
    else if ¬ (pyUpper o.mode.data ∈ ["INCREMENTAL".data, "LIST".data]) then false
    else if pyUpper o.mode.data = "LIST".data ∧ strippedEntries o.baudrate_list = [] then false
    else true
  else
    if ¬ (pyUpper o.mode.data ∈ ["INCREMENTAL".data, "LIST".data]) then false
    else if pyUpper o.mode.data = "LIST".data ∧ strippedEntries o.baudrate_list = [] then false
    else true

/-- Byte 0x41, the character A. -/
def byteA : Byte := (65 : Fin 256)

/-- Port behaviour: a byte is available at every wait and `receive(1)`
returns it. -/
def dataAlways : ℕ → Option (List Byte) := fun _ => some [byteA]

/-- Port behaviour: the first two waits stall, afterwards a byte is always
available (a target that only answers after the second trigger pulse). -/
def dataAfterTwoStalls : ℕ → Option (List Byte) :=
  fun i => if i < 2 then Option.none else some [byteA]

/-- Port behaviour: waits alternate between a stall and one available byte
(a target that answers each trigger pulse with a single byte). -/
def dataAlternating : ℕ → Option (List Byte) :=
  fun i => if i % 2 = 0 then Option.none else some [byteA]

/-- Port behaviour: the first wait reports data available but `receive(1)`
returns zero bytes (a permitted short read); every later wait yields one
byte. -/
def dataOneShortRead : ℕ → Option (List Byte) :=
  fun i => if i = 0 then some [] else some [byteA]

/-- Environment where every rate reconfigures fine and data always flows. -/
def envAllOk : Env := ⟨fun _ => true, fun _ => dataAlways⟩

/-- Environment where reconfiguring at rate 300 raises a transport error
and every other rate works, with data always flowing. -/
def envFail300 : Env := ⟨fun r => decide (r ≠ 300), fun _ => dataAlways⟩

/-- Modelled from the spec, for comparison with the source only: the same
collection loop but with the stall-retry counter reset to zero each time a
byte is read and appended, which is the behaviour the specification words
"reset the stall counter" describe.  The source never resets `loop`; this
variant exists to exhibit the divergence. -/
def collectLoopClaimedReset (trigger : Bool) (data : ℕ → Option (List Byte))
    (i count loopc : ℕ) (received : List Byte) (tx : ℕ) :
    Option Bool × List Byte × ℕ :=
  if h : count < 10 then
    match data i with
    | some bs =>
      collectLoopClaimedReset trigger data (i + 1) (count + 1) 0 (received ++ bs) tx
    | Option.none =>
      if h2 : trigger = true ∧ loopc < 3 then
        collectLoopClaimedReset trigger data (i + 1) count (loopc + 1) received (tx + 1)
      else
        (some false, received, tx)
  else
    (Option.none, received, tx)
termination_by (10 - count) * 4 + (3 - loopc)
decreasing_by
· omega
· omega

/-- Module options with list mode selected, no reset pin, and a rate list
that does not parse as integers. -/
def optsMalformedList : ModOptions := ⟨"list", Option.none, "low", "abc"⟩

/-- The collection loop can only return Python `None` (completed sample) or
Python `False` (timeout); it never returns `True`. -/
lemma collectLoop_retval_ne_true (trigger : Bool) (data : ℕ → Option (List Byte))
    (i count loopc : ℕ) (received : List Byte) (tx : ℕ) :
    (collectLoop trigger data i count loopc received tx).1 ≠ some true := by
  induction i, count, loopc, received, tx using collectLoop.induct with
  | trigger => exact trigger
  | data a => exact data a
  | case1 i count loopc received tx h bs hbs ih =>
    rw [collectLoop]
    simp only [dif_pos h, hbs]
    exact ih
  | case2 i count loopc received tx h hbs h2 ih =>
    rw [collectLoop]
    simp only [dif_pos h, hbs, dif_pos h2]
    exact ih
  | case3 i count loopc received tx h hbs h2 =>
    rw [collectLoop]
    simp only [dif_pos h, hbs, dif_neg h2]
    simp
  | case4 i count loopc received tx h =>
    rw [collectLoop]
    simp [h]

/-- The trigger characters are transmitted at most `3 - loopc` more times
from any loop state: the retry counter only ever grows, so the budget of 3
is global to the candidate rate. -/
lemma collectLoop_tx_le (trigger : Bool) (data : ℕ → Option (List Byte))
    (i count loopc : ℕ) (received : List Byte) (tx : ℕ) :
    (collectLoop trigger data i count loopc received tx).2.2 ≤ tx + (3 - loopc) := by
  induction i, count, loopc, received, tx using collectLoop.induct with
  | trigger => exact trigger
  | data a => exact data a
  | case1 i count loopc received tx h bs hbs ih =>
    rw [collectLoop]
    simp only [dif_pos h, hbs]
    exact ih
  | case2 i count loopc received tx h hbs h2 ih =>
    rw [collectLoop]
    simp only [dif_pos h, hbs, dif_pos h2]
    omega
  | case3 i count loopc received tx h hbs h2 =>
    rw [collectLoop]
    simp only [dif_pos h, hbs, dif_neg h2]
    omega
  | case4 i count loopc received tx h =>
    rw [collectLoop]
    simp [h]

/-- If every successful wait is followed by a `receive(1)` that returns
exactly one byte, then a completed collection has gathered exactly
`10 - count` further bytes (the loop counter counts read attempts). -/
lemma collectLoop_success_length (trigger : Bool) (data : ℕ → Option (List Byte))
    (i count loopc : ℕ) (received : List Byte) (tx : ℕ)
    (hone : ∀ j bs, data j = some bs → bs.length = 1) :
    (collectLoop trigger data i count loopc received tx).1 = Option.none →
      (collectLoop trigger data i count loopc received tx).2.1.length =
        received.length + (10 - count) := by
  induction i, count, loopc, received, tx using collectLoop.induct with
  | trigger => exact trigger
  | data a => exact data a
  | case1 i count loopc received tx h bs hbs ih =>
    rw [collectLoop]
    simp only [dif_pos h, hbs]
    intro hsucc
    have := ih hsucc
    rw [this]
    simp [hone i bs hbs]
    omega
  | case2 i count loopc received tx h hbs h2 ih =>
    rw [collectLoop]
    simp only [dif_pos h, hbs, dif_pos h2]
    exact ih
  | case3 i count loopc received tx h hbs h2 =>
    rw [collectLoop]
    simp only [dif_pos h, hbs, dif_neg h2]
    intro hsucc
    exact absurd hsucc (by simp)
  | case4 i count loopc received tx h =>
    rw [collectLoop]
    simp only [dif_neg h]
    intro _
    omega

/-- Python truthiness of the collection result is always `false`: both the
`None` returned after a completed sample and the `False` returned on timeout
are falsy. -/
lemma pyTruthy_process_baudrate (trigger : Bool) (data : ℕ → Option (List Byte)) :
    pyTruthy (process_baudrate trigger data).retval = false := by
  have h := collectLoop_retval_ne_true trigger data 0 0 0 [] 0
  unfold process_baudrate
  cases hr : (collectLoop trigger data 0 0 0 [] 0).1 with
  | none => simp [pyTruthy, hr]
  | some b =>
    cases b with
    | false => simp [pyTruthy, hr]
    | true => exact absurd hr h

/-- Every candidate rate of the list is configured: the break in the sweep
loop is dead code because `process_baudrate` never returns a truthy value. -/
lemma sweepRates_configured (trigger : Bool) (env : Env) (rates : List ℤ) :
    (sweepRates trigger env rates).configured = rates := by
  induction rates with
  | nil => rfl
  | cons r rest ih =>
    unfold sweepRates
    by_cases hc : env.cfgOk r
    · simp [hc, pyTruthy_process_baudrate, ih]
    · simp [hc, ih]

/-- When reconfiguration fails at a rate, that rate is neither reset nor
sampled, and the sweep continues unchanged over the remaining rates. -/
lemma sweepRates_cfg_fail (trigger : Bool) (env : Env) (r : ℤ) (rest : List ℤ)
    (hfail : env.cfgOk r = false) :
    sweepRates trigger env (r :: rest) =
      ⟨r :: (sweepRates trigger env rest).configured,
        (sweepRates trigger env rest).resets,
        (sweepRates trigger env rest).sampled⟩ := by
  have hstep : sweepRates trigger env (r :: rest) =
      (if env.cfgOk r then
        if pyTruthy (process_baudrate trigger (env.data r)).retval then
          ⟨[r], [r], [r]⟩
        else
          ⟨r :: (sweepRates trigger env rest).configured,
            r :: (sweepRates trigger env rest).resets,
            r :: (sweepRates trigger env rest).sampled⟩
      else
        ⟨r :: (sweepRates trigger env rest).configured,
          (sweepRates trigger env rest).resets,
          (sweepRates trigger env rest).sampled⟩) := rfl
  rw [hstep]
  simp [hfail]

/-- Every element of an ascending Python range is at least the start. -/
lemma pyRangeUp_lower (start stop step : ℤ) :
    ∀ x ∈ pyRangeUp start stop step, start ≤ x := by
  induction start, stop, step using pyRangeUp.induct with
  | case1 start stop step h ih =>
    rw [pyRangeUp]
    simp only [dif_pos h, List.mem_cons]
    rintro x (rfl | hx)
    · exact le_refl x
    · have := ih x hx
      omega
  | case2 start stop step h =>
    rw [pyRangeUp]
    simp [dif_neg h]

/-- Membership in an ascending Python range: exactly the values
`start + step * i` that lie strictly below the stop value. -/
lemma pyRangeUp_mem (start stop step : ℤ) (x : ℤ) :
    0 < step →
      (x ∈ pyRangeUp start stop step ↔ ∃ i : ℕ, x = start + step * i ∧ x < stop) := by
  induction start, stop, step using pyRangeUp.induct with
  | case1 start stop step h ih =>
    intro hstep
    rw [pyRangeUp]
    simp only [dif_pos h, List.mem_cons]
    constructor
    · rintro (rfl | hx)
      · exact ⟨0, by simp, h.2⟩
      · obtain ⟨i, hi, hlt⟩ := (ih hstep).1 hx
        exact ⟨i + 1, by push_cast; linarith [hi], hlt⟩
    · rintro ⟨i, rfl, hlt⟩
      cases i with
      | zero => left; simp
      | succ j =>
        right
        rw [ih hstep]
        exact ⟨j, by push_cast; ring, hlt⟩
  | case2 start stop step h =>
    intro hstep
    rw [pyRangeUp]
    simp only [dif_neg h, List.not_mem_nil, false_iff, not_exists]
    rintro i ⟨rfl, hlt⟩
    have hge : (0 : ℤ) ≤ step * i := mul_nonneg (le_of_lt hstep) (Int.natCast_nonneg i)
    have : ¬ start < stop := fun hc => h ⟨hstep, hc⟩
    omega

/-- An ascending Python range is strictly increasing. -/
lemma pyRangeUp_sorted (start stop step : ℤ) :
    List.Sorted (· < ·) (pyRangeUp start stop step) := by
  induction start, stop, step using pyRangeUp.induct with
  | case1 start stop step h ih =>
    rw [pyRangeUp]
    simp only [dif_pos h]
    rw [List.sorted_cons]
    refine ⟨?_, ih⟩
    intro y hy
    have := pyRangeUp_lower (start + step) stop step y hy
    omega
  | case2 start stop step h =>
    rw [pyRangeUp]
    simp [dif_neg h]

lemma dedup_toFinset (l : List Byte) : l.dedup.toFinset = l.toFinset := by
  ext x; simp

lemma entropy_eq_finset (l : List Byte) :
    entropy l = -∑ b ∈ l.toFinset,
      ((l.count b : ℝ) / (l.length : ℝ) * Real.logb 2 ((l.count b : ℝ) / (l.length : ℝ))) := by
  unfold entropy
  rw [← dedup_toFinset l,
    List.sum_toFinset _ l.nodup_dedup]

lemma sum_count_real (l : List Byte) :
    ∑ b ∈ l.toFinset, (l.count b : ℝ) = (l.length : ℝ) := by
  rw [← List.sum_toFinset_count_eq_length l]
  push_cast
  norm_num

lemma count_pos_of_mem_toFinset {l : List Byte} {b : Byte} (hb : b ∈ l.toFinset) :
    0 < l.count b :=
  List.count_pos_iff.mpr (List.mem_toFinset.mp hb)

lemma entropy_nonneg (l : List Byte) : 0 ≤ entropy l := by
  rw [entropy_eq_finset, neg_nonneg]
  apply Finset.sum_nonpos
  intro b hb
  rcases Nat.eq_zero_or_pos l.length with h0 | hpos
  · have : l = [] := List.length_eq_zero.mp h0
    subst this
    simp at hb
  have hn : (0:ℝ) < l.length := by exact_mod_cast hpos
  have hc : (0:ℝ) < l.count b := by exact_mod_cast count_pos_of_mem_toFinset hb
  have hle : (l.count b : ℝ) ≤ (l.length : ℝ) := by
    exact_mod_cast List.count_le_length b l
  have hp0 : 0 ≤ (l.count b : ℝ) / l.length := by positivity
  have hp1 : (l.count b : ℝ) / l.length ≤ 1 := by
    rw [div_le_one hn]; exact hle
  exact mul_nonpos_of_nonneg_of_nonpos hp0 (Real.logb_nonpos one_lt_two hp0 hp1)

lemma entropy_eq_negMulLog (l : List Byte) :
    entropy l = (∑ b ∈ l.toFinset,
      Real.negMulLog ((l.count b : ℝ) / (l.length : ℝ))) / Real.log 2 := by
  rw [entropy_eq_finset, Finset.sum_div, ← Finset.sum_neg_distrib]
  apply Finset.sum_congr rfl
  intro b hb
  rw [Real.negMulLog, Real.logb]
  field_simp

lemma entropy_le_logb_card (l : List Byte) (hl : l ≠ []) :
    entropy l ≤ Real.logb 2 (l.toFinset.card : ℝ) := by
  have hn : (0:ℝ) < l.length := by
    have := List.length_pos.mpr hl
    exact_mod_cast this
  have htne : l.toFinset.Nonempty := by
    rcases List.exists_mem_of_ne_nil l hl with ⟨y, hy⟩
    exact ⟨y, List.mem_toFinset.mpr hy⟩
  have hk0 : 0 < l.toFinset.card := Finset.card_pos.mpr htne
  have hk : (0:ℝ) < (l.toFinset.card : ℝ) := by exact_mod_cast hk0
  have hp0 : ∀ b ∈ l.toFinset, (0:ℝ) ≤ (l.count b : ℝ) / (l.length : ℝ) := by
    intro b hb; positivity
  have hw0 : ∀ b ∈ l.toFinset, (0:ℝ) ≤ ((l.toFinset.card : ℝ))⁻¹ := by
    intro b hb; positivity
  have hw1 : ∑ _b ∈ l.toFinset, ((l.toFinset.card : ℝ))⁻¹ = 1 := by
    rw [Finset.sum_const, nsmul_eq_mul]
    field_simp
  have hmem : ∀ b ∈ l.toFinset, (l.count b : ℝ) / (l.length : ℝ) ∈ Set.Ici (0:ℝ) := by
    intro b hb; exact hp0 b hb
  have hJ := Real.concaveOn_negMulLog.le_map_sum hw0 hw1 hmem
  have hpsum : ∑ b ∈ l.toFinset, (l.count b : ℝ) / (l.length : ℝ) = 1 := by
    rw [← Finset.sum_div, sum_count_real]
    field_simp
  have hRHS : ∑ b ∈ l.toFinset,
      ((l.toFinset.card : ℝ))⁻¹ • ((l.count b : ℝ) / (l.length : ℝ)) =
      ((l.toFinset.card : ℝ))⁻¹ := by
    simp only [smul_eq_mul, ← Finset.mul_sum, hpsum, mul_one]
  rw [hRHS] at hJ
  have hLHS : ∑ b ∈ l.toFinset,
      ((l.toFinset.card : ℝ))⁻¹ • Real.negMulLog ((l.count b : ℝ) / (l.length : ℝ)) =
      ((l.toFinset.card : ℝ))⁻¹ *
        ∑ b ∈ l.toFinset, Real.negMulLog ((l.count b : ℝ) / (l.length : ℝ)) := by
    simp only [smul_eq_mul, Finset.mul_sum]
  rw [hLHS] at hJ
  have hnml : Real.negMulLog (((l.toFinset.card : ℝ))⁻¹) =
      ((l.toFinset.card : ℝ))⁻¹ * Real.log (l.toFinset.card : ℝ) := by
    rw [Real.negMulLog, Real.log_inv]
    ring
  rw [hnml] at hJ
  have hS : ∑ b ∈ l.toFinset, Real.negMulLog ((l.count b : ℝ) / (l.length : ℝ)) ≤
      Real.log (l.toFinset.card : ℝ) :=
    le_of_mul_le_mul_left (by linarith [hJ]) (inv_pos.mpr hk)
  rw [entropy_eq_negMulLog, Real.logb]
  have hlog2 : (0:ℝ) < Real.log 2 := Real.log_pos one_lt_two
  exact (div_le_div_iff_of_pos_right hlog2).mpr hS

lemma entropy_nil : entropy ([] : List Byte) = 0 := by
  simp [entropy]

lemma entropy_le_eight (l : List Byte) (hl : l ≠ []) : entropy l ≤ 8 := by
  refine (entropy_le_logb_card l hl).trans ?_
  have htne : l.toFinset.Nonempty := by
    rcases List.exists_mem_of_ne_nil l hl with ⟨y, hy⟩
    exact ⟨y, List.mem_toFinset.mpr hy⟩
  have hk0 : 0 < l.toFinset.card := Finset.card_pos.mpr htne
  have hk : (0:ℝ) < (l.toFinset.card : ℝ) := by exact_mod_cast hk0
  have hle : (l.toFinset.card : ℝ) ≤ 256 := by
    have h1 := Finset.card_le_univ l.toFinset
    have h2 : (Finset.univ : Finset Byte).card = 256 := by
      rw [Finset.card_univ]
      exact Fintype.card_fin 256
    exact_mod_cast h1.trans (le_of_eq h2)
  have h256 : Real.logb 2 (256:ℝ) = 8 := by
    rw [show (256:ℝ) = 2 ^ (8:ℕ) by norm_num, Real.logb, Real.log_pow]
    have hne : Real.log 2 ≠ 0 := ne_of_gt (Real.log_pos one_lt_two)
    field_simp
  calc Real.logb 2 (l.toFinset.card : ℝ) ≤ Real.logb 2 (256:ℝ) :=
        Real.logb_le_logb_of_le one_lt_two hk hle
    _ = 8 := h256

lemma entropy_const (l : List Byte) (b : Byte) (hl : l ≠ [])
    (hall : ∀ x ∈ l, x = b) : entropy l = 0 := by
  have hbl : b ∈ l := by
    rcases List.exists_mem_of_ne_nil l hl with ⟨y, hy⟩
    have := hall y hy
    subst this
    exact hy
  have ht : l.toFinset = {b} := by
    ext x
    simp only [List.mem_toFinset, Finset.mem_singleton]
    constructor
    · intro hx
      exact hall x hx
    · rintro rfl
      exact hbl
  have hcount : l.count b = l.length := by
    rw [List.count_eq_length]
    intro x hx
    exact (hall x hx).symm
  have hn : (0:ℝ) < l.length := by
    have := List.length_pos.mpr hl
    exact_mod_cast this
  rw [entropy_eq_finset, ht, Finset.sum_singleton, hcount, div_self (ne_of_gt hn)]
  simp

lemma entropy_uniform (l : List Byte) (m : ℕ) (hl : l ≠ [])
    (hm : ∀ b ∈ l.dedup, l.count b = m) :
    entropy l = Real.logb 2 (l.dedup.length : ℝ) := by
  have hmem : ∀ b ∈ l.toFinset, l.count b = m := by
    intro b hb
    exact hm b (List.mem_dedup.mpr (List.mem_toFinset.mp hb))
  have hn0 : l.length ≠ 0 := fun h => hl (List.length_eq_zero.mp h)
  have hsum : l.toFinset.card * m = l.length := by
    rw [← List.sum_toFinset_count_eq_length l, Finset.sum_congr rfl hmem,
      Finset.sum_const, smul_eq_mul]
  have htne : l.toFinset.Nonempty := by
    rcases List.exists_mem_of_ne_nil l hl with ⟨y, hy⟩
    exact ⟨y, List.mem_toFinset.mpr hy⟩
  have hk0 : 0 < l.toFinset.card := Finset.card_pos.mpr htne
  have hm0 : m ≠ 0 := by
    intro h0
    subst h0
    omega
  have hkR : ((l.toFinset.card : ℝ)) ≠ 0 := Nat.cast_ne_zero.mpr hk0.ne'
  have hmR : ((m : ℝ)) ≠ 0 := by exact_mod_cast hm0
  have hp : ∀ b ∈ l.toFinset,
      (l.count b : ℝ) / (l.length : ℝ) = ((l.toFinset.card : ℝ))⁻¹ := by
    intro b hb
    rw [hmem b hb, ← hsum]
    push_cast
    field_simp
    ring
  rw [entropy_eq_finset, Finset.sum_congr rfl (fun b hb => by rw [hp b hb]),
    Finset.sum_const, nsmul_eq_mul, Real.logb_inv, List.card_toFinset]
  have hkR2 : ((l.dedup.length : ℝ)) ≠ 0 := by
    rw [← List.card_toFinset]
    exact hkR
  field_simp


/-- Evaluation of the collection loop on a port that always yields one
byte per wait: the sample completes with ten bytes and no trigger. -/
lemma eval_dataAlways : collectLoop false dataAlways 0 0 0 [] 0 =
    (Option.none, [byteA, byteA, byteA, byteA, byteA, byteA, byteA, byteA, byteA, byteA], 0) := by
  simp [collectLoop, dataAlways]

/-- Claim C1 (code bug): the spec and the code's own docstring and comment
say the sweep halts at the first candidate whose sample collection
completes, but `process_baudrate` returns Python `None` (falsy) on
completion instead of `True`, so the `break` in both sweep loops is dead
code.  At the failing input (incremental sweep 300..900 step 300, a port
with a byte always available), the collection at 300 completes, yet rate
600 is still configured, reset and sampled afterwards. -/
theorem c1_sweep_continues_after_completed_sample :
    incremental_mode false envAllOk 300 900 300 =
        ⟨[300, 600], [300, 600], [300, 600]⟩ ∧
      (process_baudrate false (envAllOk.data 300)).retval = Option.none := by
  constructor
  · simp [incremental_mode, pyRange, pyRangeUp, sweepRates, envAllOk,
      process_baudrate, collectLoop, dataAlways, pyTruthy]
  · simp [process_baudrate, envAllOk, collectLoop, dataAlways]

/-- Claim C2 counterexample: with `change_baudrate` failing at rate 300 and
succeeding at rate 600, the sweep does not abort: rate 600 is still
configured, reset and sampled after the failure, refuting "for every
remaining candidate rate after the failing one, no reset, sampling, or
scoring is performed". -/
theorem c2_counterexample_sweep_continues_after_cfg_failure :
    sweepRates false envFail300 [300, 600] = ⟨[300, 600], [600], [600]⟩ ∧
      (600 : ℤ) ∈ (sweepRates false envFail300 [300, 600]).sampled := by
  have h : sweepRates false envFail300 [300, 600] = ⟨[300, 600], [600], [600]⟩ := by
    simp [sweepRates, envFail300, process_baudrate, collectLoop, dataAlways, pyTruthy]
  refine ⟨h, ?_⟩
  rw [h]
  simp

/-- Claim C2 as amended: when reconfiguration fails at a candidate rate the
engine logs the error and skips that candidate (it is neither reset nor
sampled), but the sweep is not aborted: it continues unchanged over the
remaining candidate rates. -/
theorem c2_amended_cfg_failure_skips_candidate (trigger : Bool) (env : Env)
    (r : ℤ) (rest : List ℤ) (hfail : env.cfgOk r = false) :
    sweepRates trigger env (r :: rest) =
      ⟨r :: (sweepRates trigger env rest).configured,
        (sweepRates trigger env rest).resets,
        (sweepRates trigger env rest).sampled⟩ :=
  sweepRates_cfg_fail trigger env r rest hfail

/-- Witness for the amended claim C2 at the concrete failing environment. -/
theorem c2_amended_witness :
    envFail300.cfgOk 300 = false ∧
      sweepRates false envFail300 (300 :: [600]) =
        ⟨300 :: (sweepRates false envFail300 [600]).configured,
          (sweepRates false envFail300 [600]).resets,
          (sweepRates false envFail300 [600]).sampled⟩ :=
  ⟨by decide, c2_amended_cfg_failure_skips_candidate false envFail300 300 [600] (by decide)⟩

/-- Claim C4 counterexample: on a port that answers every trigger pulse
with exactly one byte (stall, byte, stall, byte, ...), the code times out
after the fourth stall with only three bytes collected and three
transmissions — the stall counter was not reset by the intervening bytes —
while the collector the claim describes (counter reset on every received
byte) completes the full ten-byte sample. -/
theorem c4_counterexample_stall_counter_not_reset :
    collectLoop true dataAlternating 0 0 0 [] 0 =
        (some false, [byteA, byteA, byteA], 3) ∧
      collectLoopClaimedReset true dataAlternating 0 0 0 [] 0 =
        (Option.none,
          [byteA, byteA, byteA, byteA, byteA, byteA, byteA, byteA, byteA, byteA], 10) := by
  constructor
  · simp [collectLoop, dataAlternating]
  · simp [collectLoopClaimedReset, dataAlternating]

/-- Claim C4 as amended: the stall-retry counter is never reset when a byte
is received; the trigger retry budget of 3 applies once over the whole
candidate rate, so from any loop state at most `3 - loopc` further
transmissions happen no matter how many bytes arrive between stalls. -/
theorem c4_amended_trigger_budget_is_global (data : ℕ → Option (List Byte))
    (i count loopc : ℕ) (received : List Byte) (tx : ℕ) :
    (collectLoop true data i count loopc received tx).2.2 ≤ tx + (3 - loopc) :=
  collectLoop_tx_le true data i count loopc received tx

/-- Claim C5: with trigger enabled the collector never transmits the
trigger characters more than 3 times for one candidate rate, and on a port
that only yields data after the second trigger pulse the collection
completes successfully with 2 transmissions. -/
theorem c5_at_most_three_trigger_transmits :
    (∀ data : ℕ → Option (List Byte),
        (collectLoop true data 0 0 0 [] 0).2.2 ≤ 3) ∧
      collectLoop true dataAfterTwoStalls 0 0 0 [] 0 =
        (Option.none,
          [byteA, byteA, byteA, byteA, byteA, byteA, byteA, byteA, byteA, byteA], 2) := by
  constructor
  · intro data
    have h := collectLoop_tx_le true data 0 0 0 [] 0
    simpa using h
  · simp [collectLoop, dataAfterTwoStalls]

/-- Claim C3: for every non-empty byte buffer the entropy lies in [0, 8];
a buffer whose bytes are all one value has entropy 0; and a buffer whose
`k` distinct byte values occur equally often has entropy `log2 k`. -/
theorem c3_entropy_range_const_uniform :
    (∀ l : List Byte, l ≠ [] → 0 ≤ entropy l ∧ entropy l ≤ 8) ∧
      (∀ (l : List Byte) (b : Byte), l ≠ [] → (∀ x ∈ l, x = b) → entropy l = 0) ∧
      (∀ (l : List Byte) (k m : ℕ), l ≠ [] → l.dedup.length = k →
        (∀ b ∈ l.dedup, l.count b = m) → entropy l = Real.logb 2 (k : ℝ)) := by
  refine ⟨?_, ?_, ?_⟩
  · intro l hl
    exact ⟨entropy_nonneg l, entropy_le_eight l hl⟩
  · intro l b hl hall
    exact entropy_const l b hl hall
  · intro l k m hl hk hm
    subst hk
    exact entropy_uniform l m hl hm

set_option maxRecDepth 8000 in
/-- Witness for claim C3 at concrete buffers: the bounds at [0, 0, 1, 1],
the constant case at [5, 5], and the uniform case at [0, 0, 1, 1] with two
distinct values. -/
theorem c3_witness :
    (0 ≤ entropy [0, 0, 1, 1] ∧ entropy [0, 0, 1, 1] ≤ 8) ∧
      entropy [5, 5] = 0 ∧
      entropy [0, 0, 1, 1] = Real.logb 2 ((2 : ℕ) : ℝ) :=
  ⟨c3_entropy_range_const_uniform.1 [0, 0, 1, 1] (by decide),
    c3_entropy_range_const_uniform.2.1 [5, 5] 5 (by decide) (by decide),
    c3_entropy_range_const_uniform.2.2 [0, 0, 1, 1] 2 2 (by decide) (by decide) (by decide)⟩

/-- Claim C6: for every completed sample the minimum-entropy option only
gates printing: with the filter set to `m` the result is printed exactly
when the sample's entropy is at least `m`, and with the filter unset it is
always printed. -/
theorem c6_min_entropy_gates_printing_only (trigger : Bool) (minEntropy : Option ℝ)
    (data : ℕ → Option (List Byte))
    (hdone : (process_baudrate trigger data).retval = Option.none) :
    process_prints trigger minEntropy data ↔
      (minEntropy = Option.none ∨
        ∃ m, minEntropy = some m ∧
          m ≤ entropy (process_baudrate trigger data).sample) := by
  unfold process_prints
  cases minEntropy with
  | none => simp [hdone]
  | some m => simp [hdone, ge_iff_le]

/-- Witness for claim C6: a port with data always available and the filter
set to 0. -/
theorem c6_witness :
    process_prints false (some 0) dataAlways ↔
      ((some (0 : ℝ)) = Option.none ∨
        ∃ m, (some (0 : ℝ)) = some m ∧
          m ≤ entropy (process_baudrate false dataAlways).sample) :=
  c6_min_entropy_gates_printing_only false (some 0) dataAlways
    (by simp [process_baudrate, eval_dataAlways])

/-- Claim C7 counterexample: `check_options` accepts the configuration with
mode `list` and the malformed rate list `abc` (it never parses the entries
as integers), refuting "check_options rejects it"; the parse failure only
surfaces in `list_mode`. -/
theorem c7_counterexample_check_options_accepts_malformed_list :
    check_options optsMalformedList = true ∧
      parseBaudrateList "abc" = Option.none := by
  constructor
  · decide
  · decide

/-- Claim C7 as amended: `check_options` accepts a list-mode configuration
whose rate list does not parse as integers (for a configuration with no
reset pin and a valid mode); the `ValueError` is instead raised while
`list_mode` builds its rate list — before any candidate rate is configured
or sampled — and propagates to `run`'s handler, so no baudrate is ever
configured or sampled under that configuration. -/
theorem c7_amended_malformed_list_fails_in_list_mode (o : ModOptions)
    (trigger : Bool) (env : Env)
    (hpin : o.reset_pin = Option.none)
    (hmode : pyUpper o.mode.data = "LIST".data)
    (hne : strippedEntries o.baudrate_list ≠ [])
    (hbad : parseBaudrateList o.baudrate_list = Option.none) :
    check_options o = true ∧ list_mode trigger env o.baudrate_list = Option.none := by
  constructor
  · unfold check_options
    rw [hpin]
    simp only [Option.isSome_none, Bool.false_eq_true, if_false]
    rw [hmode]
    simp [hne]
  · unfold list_mode
    rw [hbad]
    rfl

/-- Witness for the amended claim C7 at the concrete malformed options. -/
theorem c7_amended_witness :
    check_options optsMalformedList = true ∧
      list_mode false envAllOk optsMalformedList.baudrate_list = Option.none :=
  c7_amended_malformed_list_fails_in_list_mode optsMalformedList false envAllOk
    (by decide) (by decide) (by decide) (by decide)

/-- Claim C8: in incremental mode the candidate rates are exactly
`min, min + step, min + 2 * step, ...` strictly below `max`, in increasing
order; for (300, 1200, 300) they are exactly [300, 600, 900]; and every
generated rate is indeed attempted (the sweep configures all of them). -/
theorem c8_incremental_rates :
    (∀ start stop step x : ℤ, 0 < step →
        (x ∈ pyRange start stop step ↔ ∃ i : ℕ, x = start + step * i ∧ x < stop)) ∧
      (∀ start stop step : ℤ, 0 < step →
        List.Sorted (· < ·) (pyRange start stop step)) ∧
      pyRange 300 1200 300 = [300, 600, 900] ∧
      (∀ (trigger : Bool) (env : Env) (bmin bmax binc : ℤ),
        (incremental_mode trigger env bmin bmax binc).configured =
          pyRange bmin bmax binc) := by
  refine ⟨?_, ?_, ?_, ?_⟩
  · intro start stop step x hstep
    rw [pyRange, if_pos hstep]
    exact pyRangeUp_mem start stop step x hstep
  · intro start stop step hstep
    rw [pyRange, if_pos hstep]
    exact pyRangeUp_sorted start stop step
  · simp [pyRange, pyRangeUp]
  · intro trigger env bmin bmax binc
    exact sweepRates_configured trigger env (pyRange bmin bmax binc)

/-- Witness for claim C8: the characterisation and sortedness at the
concrete incremental configuration (300, 1200, 300). -/
theorem c8_witness :
    ((600 : ℤ) ∈ pyRange 300 1200 300 ↔
        ∃ i : ℕ, (600 : ℤ) = 300 + 300 * i ∧ (600 : ℤ) < 1200) ∧
      List.Sorted (· < ·) (pyRange 300 1200 300) ∧
      (incremental_mode false envAllOk 300 1200 300).configured =
        pyRange 300 1200 300 :=
  ⟨c8_incremental_rates.1 300 1200 300 600 (by norm_num),
    c8_incremental_rates.2.1 300 1200 300 (by norm_num),
    c8_incremental_rates.2.2.2 false envAllOk 300 1200 300⟩

/-- Claim C9 counterexample: on a port whose first successful wait is
followed by a `receive(1)` that returns zero bytes (a short read the
interface permits), the collection still completes — the loop counter
counts read attempts — but the sample handed to the entropy scorer has only
9 bytes, not the threshold of 10. -/
theorem c9_counterexample_short_read_sample_below_threshold :
    process_baudrate false dataOneShortRead =
        ⟨Option.none,
          [byteA, byteA, byteA, byteA, byteA, byteA, byteA, byteA, byteA], 0⟩ ∧
      (process_baudrate false dataOneShortRead).sample.length = 9 := by
  have h : process_baudrate false dataOneShortRead =
      ⟨Option.none,
        [byteA, byteA, byteA, byteA, byteA, byteA, byteA, byteA, byteA], 0⟩ := by
    simp [process_baudrate, collectLoop, dataOneShortRead]
  refine ⟨h, ?_⟩
  rw [h]
  rfl

/-- Claim C9 as amended: whenever collection completes, the sample contains
exactly the threshold of 10 bytes provided every `receive(1)` after a
successful wait returns exactly one byte; under short reads the completed
sample may be shorter (the loop counts read attempts, not bytes). -/
theorem c9_amended_sample_is_ten_under_one_byte_reads (trigger : Bool)
    (data : ℕ → Option (List Byte))
    (hone : ∀ j bs, data j = some bs → bs.length = 1)
    (hdone : (process_baudrate trigger data).retval = Option.none) :
    (process_baudrate trigger data).sample.length = 10 := by
  unfold process_baudrate at hdone ⊢
  have h := collectLoop_success_length trigger data 0 0 0 [] 0 hone hdone
  simpa using h

/-- Witness for the amended claim C9 at the always-one-byte port. -/
theorem c9_amended_witness :
    (process_baudrate false dataAlways).sample.length = 10 :=
  c9_amended_sample_is_ten_under_one_byte_reads false dataAlways
    (fun j bs h => by
      simp [dataAlways] at h
      rw [← h]
      rfl)
    (by simp [process_baudrate, eval_dataAlways])

/-- Claim C10: the entropy function is total and yields 0 on the empty
buffer: the sum it negates ranges over the deduplicated buffer, which is
empty, so no division by the zero length is ever evaluated. -/
theorem c10_entropy_total_empty_is_zero :
    ([] : List Byte).dedup = [] ∧ entropy ([] : List Byte) = 0 :=
  ⟨rfl, entropy_nil⟩

end BaudrateAnalyzer
